import Mathlib

/-!
Shallow embedding of the `flower_bloom_filter` native bit array
(`src/native/bitarray/src/lib.rs`, Rust/rustler NIF module
`Elixir.Flower.Native.BitArray`), and verification of the specification
claims about it.

Modelling conventions:
* A `BitArray` resource is its locked word storage `Box<[u64]>`, modelled as
  `List Nat` with every word below `2 ^ 64` (the `wf` predicate).  Every NIF
  call is a single critical section, so each operation is a plain function on
  the word list.
* Rust `usize`/`u64` arithmetic is `Nat` with explicit `% 2 ^ 64` where the
  source can wrap (the `as usize` cast of a negative `isize` in
  `to_bin_chunked` is `Int.emod` by `2 ^ 64`).
* Out-of-range slice indexing (a Rust panic, surfaced as an Erlang NIF error)
  is modelled by returning `none`; operations that cannot fail are total.
-/

namespace Flower

/-- Words of a `BitArray`: the `Box<[u64]>` behind the mutex. -/
abbrev Words := List Nat

/-- Well-formedness: every stored word fits in a `u64`. -/
def wf (a : Words) : Prop := ∀ w ∈ a, w < 2 ^ 64

/-- `const CHUNK_SIZE_U64: usize = 1024;` -/
def CHUNK_SIZE_U64 : Nat := 1024

/-- `u64::count_ones`: the number of set bits among the 64 bits of a word. -/
def popCount64 (w : Nat) : Nat := (List.range 64).countP (fun i => w.testBit i)

/-- `fn new(length: usize)`: `vec![0; (length + 63) / 64].into_boxed_slice()`.
The addition `length + 63` is `usize` arithmetic: for `length > 2 ^ 64 - 64`
it wraps modulo `2 ^ 64` in a release build (a debug build panics on the
overflow instead), so such a call allocates `((length + 63) mod 2 ^ 64) / 64`
words, not `ceil(length / 64)`. -/
def new (length : Nat) : Words := List.replicate (((length + 63) % 2 ^ 64) / 64) 0

/-- `fn put(resource, index, value)`: read-modify-write of word `index / 64`;
`word |= 1 << (index % 64)` or `word &= !(1 << (index % 64))`.  The bitwise
complement `!m` of a `u64` is `(2 ^ 64 - 1) ^^^ m`.  Indexing `vec[index / 64]`
out of range panics, modelled as `none`. -/
def put (a : Words) (index : Nat) (value : Bool) : Option Words :=
  match a[index / 64]? with
  | none => none
  | some word =>
    some (a.set (index / 64)
      (if value then word ||| (1 <<< (index % 64))
       else word &&& ((2 ^ 64 - 1) ^^^ (1 <<< (index % 64)))))

/-- `fn get(resource, index)`: `(data[index / 64] & (1 << (index % 64))) != 0`. -/
def get (a : Words) (index : Nat) : Option Bool :=
  (a[index / 64]?).map (fun word => decide (word &&& (1 <<< (index % 64)) ≠ 0))

/-- `fn count_ones(resource)`: `data.iter().map(|x| x.count_ones() as usize).sum()`. -/
def count_ones (a : Words) : Nat := (a.map popCount64).sum

/-- `fn bit_length(resource)`: `data.len() * 64`. -/
def bit_length (a : Words) : Nat := a.length * 64

/-- The cursor returned by the chunked operations: the atom `eof`, or the next
chunk number. -/
inductive Cursor where
  | eof : Cursor
  | next (n : Nat) : Cursor
deriving DecidableEq, Repr

/-- `fn to_bin_chunked(env, resource, chunk_num)`.
`reminding = data.len() as isize - offset as isize` is signed; `size =
min(CHUNK_SIZE_U64 as isize, reminding) as usize` reinterprets that signed
value modulo `2 ^ 64` (so a negative `reminding` yields a huge `size`).
The byte loop writes word `data[x + offset]` as 8 little-endian bytes
`(data[x + offset] >> (y * 8)) as u8`.  When the loop would index past the end
of `data` the call fails (in the source the preceding giant allocation fails,
or the indexing panics), modelled as `none`. -/
def to_bin_chunked (a : Words) (chunk_num : Nat) : Option (Cursor × List Nat) :=
  let offset := chunk_num * CHUNK_SIZE_U64
  let reminding : Int := (a.length : Int) - (offset : Int)
  let size : Nat := ((min (CHUNK_SIZE_U64 : Int) reminding) % ((2 : Int) ^ 64)).toNat
  if size ≠ 0 ∧ a.length < offset + size then none
  else
    some (if reminding ≤ (CHUNK_SIZE_U64 : Int) then Cursor.eof else Cursor.next (chunk_num + 1),
      (List.range size).flatMap fun x =>
        (List.range 8).map fun y => (a.getD (x + offset) 0 >>> (y * 8)) % 256)

/-- Loop body of `fn or_chunk`: for each byte `b` at absolute byte position
`p`, `data[p / 8] |= (b as u64) << ((p % 8) * 8)`; out-of-range indexing
panics (`none`). -/
def or_chunk_go (a : Words) (bin : List Nat) (p : Nat) : Option Words :=
  match bin with
  | [] => some a
  | b :: rest =>
    match a[p / 8]? with
    | none => none
    | some w => or_chunk_go (a.set (p / 8) (w ||| (b <<< ((p % 8) * 8)))) rest (p + 1)

/-- `fn or_chunk(resource, bin, byte_offset)`: OR-merges the byte buffer into
the words starting at absolute byte position `byte_offset` and returns
`byte_offset + bin.len()`. -/
def or_chunk (a : Words) (bin : List Nat) (byte_offset : Nat) : Option (Words × Nat) :=
  (or_chunk_go a bin byte_offset).map (fun a2 => (a2, byte_offset + bin.length))

/-- `fn count_ones_chunked(env, resource, chunk_num)`: `remaining =
data.len().saturating_sub(offset)` (this one saturates, unlike
`to_bin_chunked`), `size = min(CHUNK_SIZE_U64, remaining)`, sums
`data[x + offset].count_ones()` over the chunk.  Total: the loop never
indexes out of range. -/
def count_ones_chunked (a : Words) (chunk_num : Nat) : Cursor × Nat :=
  let offset := chunk_num * CHUNK_SIZE_U64
  let remaining := a.length - offset
  let size := min CHUNK_SIZE_U64 remaining
  (if remaining ≤ CHUNK_SIZE_U64 then Cursor.eof else Cursor.next (chunk_num + 1),
   ((List.range size).map fun x => popCount64 (a.getD (x + offset) 0)).sum)

/-- Caller-side driver of the chunked serialization protocol: call
`to_bin_chunked` with increasing chunk numbers, concatenating the returned
buffers, until the cursor is `eof`.  `fuel` bounds the number of calls; with
enough fuel it never runs out. -/
def serialize_from (a : Words) : Nat → Nat → Option (List Nat)
  | 0, _ => none
  | fuel + 1, chunk_num =>
    match to_bin_chunked a chunk_num with
    | none => none
    | some (Cursor.eof, bin) => some bin
    | some (Cursor.next k, bin) => (serialize_from a fuel k).map (fun rest => bin ++ rest)

/-- The full chunked serialization, driven from `chunk_num = 0` to `eof`. -/
def serialize_all (a : Words) : Option (List Nat) :=
  serialize_from a (a.length / CHUNK_SIZE_U64 + 1) 0

/-- Caller-side driver of the chunked popcount protocol: sum the partial
counts from `chunk_num` until the cursor is `eof`. -/
def count_from (a : Words) : Nat → Nat → Option Nat
  | 0, _ => none
  | fuel + 1, chunk_num =>
    match count_ones_chunked a chunk_num with
    | (Cursor.eof, c) => some c
    | (Cursor.next k, c) => (count_from a fuel k).map (fun rest => c + rest)

/-- Sum of all `count_ones_chunked` partial counts, driven from `chunk_num = 0`
to `eof`. -/
def count_all (a : Words) : Option Nat :=
  count_from a (a.length / CHUNK_SIZE_U64 + 1) 0

/-- The little-endian 8-byte encoding of one 64-bit word, written from the
spec: byte `y` is `(w / 2 ^ (8 * y)) % 256`. -/
def leBytes (w : Nat) : List Nat := (List.range 8).map fun y => w / 2 ^ (y * 8) % 256

/-- The byte stream of a whole array: every word in order, little-endian. -/
def leEncoding (a : Words) : List Nat := a.flatMap leBytes

/-- The byte stored at absolute byte position `p` of the array: lane `p % 8`
of word `p / 8`. -/
def byteAt (a : Words) (p : Nat) : Nat := (a.getD (p / 8) 0 >>> ((p % 8) * 8)) % 256

/-! ### Basic bit-level lemmas -/

/-- The word at index `j`, defaulting to 0 out of range. -/
def wordAt (a : Words) (j : Nat) : Nat := a.getD j 0

theorem shiftLeft_one (k : Nat) : 1 <<< k = 2 ^ k := by
  simp [Nat.shiftLeft_eq]

theorem and_two_pow_ne_zero (w k : Nat) : (w &&& 2 ^ k ≠ 0) ↔ w.testBit k = true := by
  constructor
  · intro h
    by_contra hbit
    rw [Bool.not_eq_true] at hbit
    apply h
    apply Nat.eq_of_testBit_eq
    intro i
    simp only [Nat.testBit_and, Nat.testBit_two_pow, Nat.zero_testBit]
    by_cases hk : k = i
    · subst hk
      simp [hbit]
    · simp [hk]
  · intro hbit h
    have h2 : (w &&& 2 ^ k).testBit k = true := by
      simp only [Nat.testBit_and, Nat.testBit_two_pow]
      simp [hbit]
    rw [h] at h2
    simp at h2

theorem decide_and_pow (w k : Nat) : decide (w &&& 2 ^ k ≠ 0) = w.testBit k := by
  by_cases hb : w.testBit k = true
  · simp [hb, (and_two_pow_ne_zero w k).mpr hb]
  · have h0 : ¬(w &&& 2 ^ k ≠ 0) := fun h => hb ((and_two_pow_ne_zero w k).mp h)
    rw [Bool.not_eq_true] at hb
    simp [hb, h0]

theorem decide_and_pow_zero (w k : Nat) : decide (w &&& 2 ^ k = 0) = !w.testBit k := by
  rw [← decide_and_pow]
  by_cases h : w &&& 2 ^ k = 0 <;> simp [h]

theorem or_pow_testBit_self (w k : Nat) : (w ||| 2 ^ k).testBit k = true := by
  simp [Nat.testBit_or, Nat.testBit_two_pow]

theorem or_pow_testBit_ne (w k m : Nat) (h : k ≠ m) :
    (w ||| 2 ^ k).testBit m = w.testBit m := by
  simp [Nat.testBit_or, Nat.testBit_two_pow, h]

theorem mask_testBit_self (w k : Nat) (hk : k < 64) :
    (w &&& ((2 ^ 64 - 1) ^^^ 2 ^ k)).testBit k = false := by
  simp only [Nat.testBit_and, Nat.testBit_xor, Nat.testBit_two_pow_sub_one,
    Nat.testBit_two_pow]
  simp [hk]

theorem mask_testBit_ne (w k m : Nat) (hm : m < 64) (h : k ≠ m) :
    (w &&& ((2 ^ 64 - 1) ^^^ 2 ^ k)).testBit m = w.testBit m := by
  simp only [Nat.testBit_and, Nat.testBit_xor, Nat.testBit_two_pow_sub_one,
    Nat.testBit_two_pow]
  simp [hm, h]

theorem wordAt_set_self (a : Words) (j : Nat) (w : Nat) (h : j < a.length) :
    wordAt (a.set j w) j = w := by
  simp [wordAt, List.getElem?_set_self h]

theorem wordAt_set_ne (a : Words) (j k : Nat) (w : Nat) (h : j ≠ k) :
    wordAt (a.set j w) k = wordAt a k := by
  simp [wordAt, List.getElem?_set_ne h]

/-- `get` reads bit `index % 64` of word `index / 64`. -/
theorem get_eq_testBit (a : Words) (i : Nat) (h : i / 64 < a.length) :
    get a i = some ((wordAt a (i / 64)).testBit (i % 64)) := by
  unfold get wordAt
  rw [List.getElem?_eq_getElem h]
  simp [List.getD_eq_getElem?_getD, List.getElem?_eq_getElem h, shiftLeft_one,
    decide_and_pow, decide_and_pow_zero]

theorem index_div_lt (a : Words) (i : Nat) (hi : i < bit_length a) :
    i / 64 < a.length := by
  unfold bit_length at hi
  omega

/-- `put` at a valid index succeeds and is `List.set` of the rewritten word. -/
theorem put_eq_set (a : Words) (i : Nat) (v : Bool) (h : i / 64 < a.length) :
    put a i v = some (a.set (i / 64)
      (if v then wordAt a (i / 64) ||| 2 ^ (i % 64)
       else wordAt a (i / 64) &&& ((2 ^ 64 - 1) ^^^ 2 ^ (i % 64)))) := by
  unfold put wordAt
  rw [List.getElem?_eq_getElem h]
  simp only [List.getD_eq_getElem?_getD, List.getElem?_eq_getElem h,
    Option.getD_some, shiftLeft_one]

/-! ### C1: put/get round-trip and frame -/

/-- C1: for every bit array and every index `i < bit_length`, `get` after
`put(a, i, v)` returns `v` (for both `v = true` and `v = false`), and a single
`put` leaves every other valid index unchanged. -/
theorem put_get_roundtrip (a : Words) (i : Nat) (hi : i < bit_length a) :
    (∀ v : Bool, ∃ a2, put a i v = some a2 ∧ get a2 i = some v) ∧
    (∀ (v : Bool) (a2 : Words), put a i v = some a2 →
      ∀ j, j < bit_length a → j ≠ i → get a2 j = get a j) := by
  have hidx : i / 64 < a.length := index_div_lt a i hi
  have hmod : i % 64 < 64 := Nat.mod_lt _ (by decide)
  constructor
  · intro v
    refine ⟨_, put_eq_set a i v hidx, ?_⟩
    have hlen : i / 64 < (a.set (i / 64)
        (if v then wordAt a (i / 64) ||| 2 ^ (i % 64)
         else wordAt a (i / 64) &&& ((2 ^ 64 - 1) ^^^ 2 ^ (i % 64)))).length := by
      simpa using hidx
    rw [get_eq_testBit _ _ hlen, wordAt_set_self _ _ _ hidx]
    cases v with
    | true => rw [if_pos rfl, or_pow_testBit_self]
    | false =>
      rw [if_neg (by simp), mask_testBit_self _ _ hmod]
  · intro v a2 hput j hj hne
    rw [put_eq_set a i v hidx] at hput
    injection hput with hput
    subst hput
    have hjdx : j / 64 < a.length := index_div_lt a j hj
    have hjlen : j / 64 < (a.set (i / 64)
        (if v then wordAt a (i / 64) ||| 2 ^ (i % 64)
         else wordAt a (i / 64) &&& ((2 ^ 64 - 1) ^^^ 2 ^ (i % 64)))).length := by
      simpa using hjdx
    rw [get_eq_testBit _ _ hjlen, get_eq_testBit _ _ hjdx]
    by_cases hsame : i / 64 = j / 64
    · have hbitne : i % 64 ≠ j % 64 := by
        intro hbit
        exact hne (by omega)
      have hj64 : j % 64 < 64 := Nat.mod_lt _ (by decide)
      rw [← hsame, wordAt_set_self _ _ _ hidx]
      cases v with
      | true =>
        rw [if_pos rfl, or_pow_testBit_ne _ _ _ hbitne, hsame]
      | false =>
        rw [if_neg (by simp), mask_testBit_ne _ _ _ hj64 hbitne, hsame]
    · rw [wordAt_set_ne _ _ _ _ hsame]

/-! ### C2: creation -/

theorem length_new (n : Nat) : (new n).length = ((n + 63) % 2 ^ 64) / 64 := by
  simp [new]

theorem popCount64_zero : popCount64 0 = 0 := by decide

theorem count_ones_new (n : Nat) : count_ones (new n) = 0 := by
  simp [count_ones, new, popCount64_zero]

theorem wordAt_new (n j : Nat) : wordAt (new n) j = 0 := by
  unfold wordAt new
  rw [List.getD_eq_getElem?_getD, List.getElem?_replicate]
  split <;> rfl

theorem get_new (n i : Nat) (hi : i < bit_length (new n)) :
    get (new n) i = some false := by
  rw [get_eq_testBit _ _ (index_div_lt _ _ hi), wordAt_new]
  simp

/-- C2 counterexample: the claim quantifies over every `n ≥ 0`, but for
`n = 2 ^ 64 - 1` the `usize` addition `n + 63` wraps to 62, so `create`
allocates 0 words (`bit_length = 0`) instead of `ceil(n/64) = 2 ^ 58` words
(`64 * ceil(n/64) = 2 ^ 64`). -/
theorem create_zeroed_counterexample :
    (new (2 ^ 64 - 1)).length = 0 ∧
    (2 ^ 64 - 1 + 63) / 64 ≠ 0 ∧
    bit_length (new (2 ^ 64 - 1)) ≠ 64 * ((2 ^ 64 - 1 + 63) / 64) := by
  refine ⟨by decide, by decide, by decide⟩

/-- C2 (amended): for every `n` whose `usize` computation `n + 63` does not
wrap (`n + 63 < 2 ^ 64`), `create(n)` allocates exactly `ceil(n/64)`
zero-initialized words, `bit_length` is `64 * ceil(n/64)` (the least multiple
of 64 that is at least `n`), every bit reads as 0, and `count_ones` of a
fresh array is 0. -/
theorem create_zeroed (n : Nat) (hn : n + 63 < 2 ^ 64) :
    (new n).length = (n + 63) / 64 ∧
    bit_length (new n) = 64 * ((n + 63) / 64) ∧
    n ≤ bit_length (new n) ∧ bit_length (new n) < n + 64 ∧
    count_ones (new n) = 0 ∧
    (∀ i, i < bit_length (new n) → get (new n) i = some false) := by
  have hmod : (n + 63) % 2 ^ 64 = n + 63 := Nat.mod_eq_of_lt hn
  have hlen : (new n).length = (n + 63) / 64 := by
    rw [length_new, hmod]
  have hdm := Nat.div_add_mod (n + 63) 64
  have hml : (n + 63) % 64 < 64 := Nat.mod_lt _ (by decide)
  refine ⟨hlen, ?_, ?_, ?_, count_ones_new n, fun i hi => get_new n i hi⟩
  · unfold bit_length
    rw [hlen]
    exact Nat.mul_comm _ _
  · unfold bit_length
    rw [hlen]
    omega
  · unfold bit_length
    rw [hlen]
    omega

/-- Witness for C2 at a concrete input (the spec's `create(100)` scenario:
2 words, 128 bits). -/
theorem create_zeroed_witness :
    100 + 63 < 2 ^ 64 ∧
    ((new 100).length = (100 + 63) / 64 ∧
      bit_length (new 100) = 64 * ((100 + 63) / 64) ∧
      100 ≤ bit_length (new 100) ∧ bit_length (new 100) < 100 + 64 ∧
      count_ones (new 100) = 0 ∧
      (∀ i, i < bit_length (new 100) → get (new 100) i = some false)) :=
  ⟨by decide, create_zeroed 100 (by decide)⟩

/-! ### C10: valid indices never take the out-of-range branch -/

/-- C10: whenever `0 ≤ i < bit_length a`, the word index `i / 64` computed by
`get` and `put` is strictly below the number of allocated words, so `get` and
`put` complete (never hit the panicking out-of-range indexing). -/
theorem valid_index_in_range (a : Words) (i : Nat) (hi : i < bit_length a) :
    i / 64 < a.length ∧ (∃ b, get a i = some b) ∧
    (∀ v : Bool, ∃ a2, put a i v = some a2) := by
  have h := index_div_lt a i hi
  exact ⟨h, ⟨_, get_eq_testBit a i h⟩, fun v => ⟨_, put_eq_set a i v h⟩⟩

/-- Witness for C10 at a concrete input. -/
theorem valid_index_in_range_witness :
    (99 : Nat) < bit_length (new 100) ∧
    (99 / 64 < (new 100).length ∧ (∃ b, get (new 100) 99 = some b) ∧
      (∀ v : Bool, ∃ a2, put (new 100) 99 v = some a2)) :=
  ⟨by decide, valid_index_in_range (new 100) 99 (by decide)⟩

/-- Witness for C1 at a concrete input. -/
theorem put_get_roundtrip_witness :
    (5 : Nat) < bit_length (new 100) ∧
    ((∀ v : Bool, ∃ a2, put (new 100) 5 v = some a2 ∧ get a2 5 = some v) ∧
      (∀ (v : Bool) (a2 : Words), put (new 100) 5 v = some a2 →
        ∀ j, j < bit_length (new 100) → j ≠ 5 → get a2 j = get (new 100) j)) :=
  ⟨by decide, put_get_roundtrip (new 100) 5 (by decide)⟩

/-! ### Chunked serialization -/

/-- The 8 little-endian bytes of one word, exactly as the inner loop of
`to_bin_chunked` produces them. -/
def chunkBytes (w : Nat) : List Nat := (List.range 8).map fun y => (w >>> (y * 8)) % 256

theorem chunkBytes_eq_leBytes : chunkBytes = leBytes := by
  funext w
  simp [chunkBytes, leBytes, Nat.shiftRight_eq_div_pow]

theorem range_map_getD (l : List Nat) (off n : Nat) (h : off + n ≤ l.length) :
    (List.range n).map (fun x => l.getD (x + off) 0) = (l.drop off).take n := by
  apply List.ext_getElem
  · simp
    omega
  · intro i h1 h2
    simp only [List.getElem_map, List.getElem_range, List.getElem_take,
      List.getElem_drop]
    have hlt : off + i < l.length := by
      simp at h1
      omega
    have hgetD : l.getD (i + off) 0 = l.getD (off + i) 0 := by rw [Nat.add_comm]
    rw [hgetD, List.getD_eq_getElem?_getD, List.getElem?_eq_getElem hlt]
    rfl

theorem take_min_length {α : Type} (l : List α) (n : Nat) :
    l.take (min n l.length) = l.take n := by
  by_cases h : n ≤ l.length
  · rw [Nat.min_eq_left h]
  · rw [Nat.min_eq_right (by omega), List.take_length,
      List.take_of_length_le (by omega)]

/-- In-range unfolding of `to_bin_chunked`: when `offset ≤ W` the call
succeeds, serializes the next `min(CHUNK_SIZE_U64, W - offset)` words, and
returns `eof` iff at most `CHUNK_SIZE_U64` words remain. -/
theorem to_bin_chunked_eq (a : Words) (c : Nat) (hc : c * CHUNK_SIZE_U64 ≤ a.length) :
    to_bin_chunked a c = some
      ((if a.length - c * CHUNK_SIZE_U64 ≤ CHUNK_SIZE_U64 then Cursor.eof
        else Cursor.next (c + 1)),
       ((a.drop (c * CHUNK_SIZE_U64)).take CHUNK_SIZE_U64).flatMap chunkBytes) := by
  simp only [to_bin_chunked]
  have hsz : ((min (CHUNK_SIZE_U64 : Int) ((a.length : Int) - ((c * CHUNK_SIZE_U64 : Nat) : Int))) % ((2 : Int) ^ 64)).toNat
      = min CHUNK_SIZE_U64 (a.length - c * CHUNK_SIZE_U64) := by
    have h2 : ((2 : Int) ^ 64) = 18446744073709551616 := by norm_num
    have hC : CHUNK_SIZE_U64 = 1024 := rfl
    rw [h2, hC]
    rw [hC] at hc
    omega
  rw [hsz]
  rw [if_neg (by
    intro hcontra
    rcases hcontra with ⟨h1, h2⟩
    omega)]
  have hcur : (((a.length : Int) - ((c * CHUNK_SIZE_U64 : Nat) : Int)) ≤ (CHUNK_SIZE_U64 : Int))
      ↔ (a.length - c * CHUNK_SIZE_U64 ≤ CHUNK_SIZE_U64) := by omega
  rw [if_congr hcur rfl rfl]
  congr 1
  have hrw : (fun x => (List.range 8).map fun y => (a.getD (x + c * CHUNK_SIZE_U64) 0 >>> (y * 8)) % 256)
      = chunkBytes ∘ (fun x => a.getD (x + c * CHUNK_SIZE_U64) 0) := rfl
  rw [hrw, List.flatMap_def, ← List.map_map, range_map_getD _ _ _ (by omega),
    ← List.flatMap_def]
  have hlen : (a.drop (c * CHUNK_SIZE_U64)).length = a.length - c * CHUNK_SIZE_U64 := by
    simp
  rw [← hlen, take_min_length]

/-- With enough fuel, driving `to_bin_chunked` from chunk `c` to `eof`
concatenates the little-endian bytes of all words from `c * CHUNK_SIZE_U64`
on. -/
theorem serialize_from_eq (a : Words) (fuel : Nat) : ∀ c : Nat, 1 ≤ fuel →
    c * CHUNK_SIZE_U64 ≤ a.length →
    a.length ≤ c * CHUNK_SIZE_U64 + fuel * CHUNK_SIZE_U64 →
    serialize_from a fuel c = some ((a.drop (c * CHUNK_SIZE_U64)).flatMap chunkBytes) := by
  induction fuel with
  | zero => intro c h; omega
  | succ fuel ih =>
    intro c _ hc hlen
    rw [serialize_from, to_bin_chunked_eq a c hc]
    by_cases heof : a.length - c * CHUNK_SIZE_U64 ≤ CHUNK_SIZE_U64
    · rw [if_pos heof]
      dsimp only
      have hdl : (a.drop (c * CHUNK_SIZE_U64)).length ≤ CHUNK_SIZE_U64 := by
        simp
        omega
      rw [List.take_of_length_le hdl]
    · rw [if_neg heof]
      dsimp only
      have hCpos : 0 < CHUNK_SIZE_U64 := by decide
      have hfuel : 1 ≤ fuel := by
        by_contra hzero
        have : fuel = 0 := by omega
        subst this
        simp at hlen
        omega
      have hc1 : (c + 1) * CHUNK_SIZE_U64 ≤ a.length := by
        have : (c + 1) * CHUNK_SIZE_U64 = c * CHUNK_SIZE_U64 + CHUNK_SIZE_U64 := by ring
        omega
      have hl1 : a.length ≤ (c + 1) * CHUNK_SIZE_U64 + fuel * CHUNK_SIZE_U64 := by
        have h1 : (c + 1) * CHUNK_SIZE_U64 = c * CHUNK_SIZE_U64 + CHUNK_SIZE_U64 := by ring
        have h2 : (fuel + 1) * CHUNK_SIZE_U64 = fuel * CHUNK_SIZE_U64 + CHUNK_SIZE_U64 := by ring
        omega
      rw [ih (c + 1) hfuel hc1 hl1]
      simp only [Option.map_some']
      congr 1
      rw [← List.flatMap_append]
      congr 1
      have h1 : (c + 1) * CHUNK_SIZE_U64 = c * CHUNK_SIZE_U64 + CHUNK_SIZE_U64 := by ring
      rw [h1, ← List.drop_drop]
      exact List.take_append_drop _ _

/-- Driving the protocol from chunk 0 to `eof` serializes the whole array. -/
theorem serialize_all_eq (a : Words) : serialize_all a = some (leEncoding a) := by
  unfold serialize_all leEncoding
  have h := serialize_from_eq a (a.length / CHUNK_SIZE_U64 + 1) 0
  rw [show CHUNK_SIZE_U64 = 1024 from rfl] at h
  rw [show CHUNK_SIZE_U64 = 1024 from rfl]
  rw [h (by omega) (by omega) (by omega)]
  rw [Nat.zero_mul, List.drop_zero, chunkBytes_eq_leBytes]

theorem length_flatMap_chunkBytes (l : Words) :
    (l.flatMap chunkBytes).length = l.length * 8 := by
  induction l with
  | nil => rfl
  | cons w t ih =>
    simp only [List.flatMap_cons, List.length_append, ih]
    have : (chunkBytes w).length = 8 := by simp [chunkBytes]
    rw [this]
    simp [List.length_cons]
    ring

theorem length_leEncoding (a : Words) : (leEncoding a).length = a.length * 8 := by
  rw [leEncoding, ← chunkBytes_eq_leBytes, length_flatMap_chunkBytes]

/-! ### C3: chunked serialization round-trip -/

/-- C3: driving `serialize_chunk` from `chunk_num = 0` to `eof` and
concatenating the buffers yields exactly `W * 8` bytes: the little-endian
8-byte encoding of each of the `W` words in order (each word reassembles from
its 8 bytes as `Σ byte_y * 2^(8y)`). -/
theorem serialize_chunked_roundtrip (a : Words) (hw : wf a) :
    serialize_all a = some (leEncoding a) ∧
    (leEncoding a).length = a.length * 8 ∧
    (∀ w ∈ a, ((List.range 8).map (fun y => (leBytes w).getD y 0 * 2 ^ (y * 8))).sum = w) := by
  refine ⟨serialize_all_eq a, length_leEncoding a, fun w hwmem => ?_⟩
  have hwlt : w < 2 ^ 64 := hw w hwmem
  have h64 : (2 : Nat) ^ 64 = 18446744073709551616 := by norm_num
  rw [h64] at hwlt
  simp [leBytes, List.range_succ]
  omega

/-- Witness for C3 at a concrete input. -/
theorem serialize_chunked_roundtrip_witness :
    wf [3, 18446744073709551615] ∧
    (serialize_all [3, 18446744073709551615] = some (leEncoding [3, 18446744073709551615]) ∧
      (leEncoding [3, 18446744073709551615]).length = ([3, 18446744073709551615] : Words).length * 8 ∧
      (∀ w ∈ ([3, 18446744073709551615] : Words),
        ((List.range 8).map (fun y => (leBytes w).getD y 0 * 2 ^ (y * 8))).sum = w)) := by
  have hwf : wf [3, 18446744073709551615] := by
    unfold wf
    decide
  exact ⟨hwf, serialize_chunked_roundtrip [3, 18446744073709551615] hwf⟩

/-! ### C9: exact EOF boundary of serialize_chunk -/

/-- C9: with `CHUNK_SIZE_U64 = 1024`, an array of exactly 1024 words
serializes in one chunk (`eof`, 8192 bytes); an array of 1025 words yields
cursor `1` with 8192 bytes for chunk 0, then `eof` with exactly 8 bytes for
chunk 1. -/
theorem serialize_chunk_boundary :
    (to_bin_chunked (new (1024 * 64)) 0).map (fun r => (r.1, r.2.length))
        = some (Cursor.eof, 8192) ∧
    (to_bin_chunked (new (1024 * 64 + 64)) 0).map (fun r => (r.1, r.2.length))
        = some (Cursor.next 1, 8192) ∧
    (to_bin_chunked (new (1024 * 64 + 64)) 1).map (fun r => (r.1, r.2.length))
        = some (Cursor.eof, 8) := by
  have hl1 : (new (1024 * 64)).length = 1024 := by
    rw [length_new]
    decide
  have hl2 : (new (1024 * 64 + 64)).length = 1025 := by
    rw [length_new]
    decide
  refine ⟨?_, ?_, ?_⟩
  · rw [to_bin_chunked_eq _ 0 (by rw [hl1] ; decide)]
    rw [if_pos (by rw [hl1] ; decide)]
    simp only [Option.map_some', Nat.zero_mul, List.drop_zero]
    rw [List.take_of_length_le (by rw [hl1] ; decide)]
    rw [length_flatMap_chunkBytes, hl1]
  · rw [to_bin_chunked_eq _ 0 (by rw [hl2] ; decide)]
    rw [if_neg (by rw [hl2] ; decide)]
    simp only [Option.map_some', Nat.zero_mul, List.drop_zero]
    rw [length_flatMap_chunkBytes]
    have htk : ((new (1024 * 64 + 64)).take CHUNK_SIZE_U64).length = 1024 := by
      rw [List.length_take, hl2]
      decide
    rw [htk]
  · rw [to_bin_chunked_eq _ 1 (by rw [hl2] ; decide)]
    rw [if_pos (by rw [hl2] ; decide)]
    simp only [Option.map_some']
    rw [length_flatMap_chunkBytes]
    have htk : (((new (1024 * 64 + 64)).drop (1 * CHUNK_SIZE_U64)).take CHUNK_SIZE_U64).length = 1 := by
      rw [List.length_take, List.length_drop, hl2]
      decide
    rw [htk]

/-! ### C8: serialize_chunk past the end -/

/-- C8 (code bug): the spec says a `chunk_num` past the end (`remaining == 0`)
still returns an `eof` cursor with an empty buffer, and the sibling
`count_ones_chunked` indeed handles this with `saturating_sub`; but
`to_bin_chunked` computes `size` by casting a negative `isize` to `usize`,
producing a huge allocation/out-of-range access, so the call fails instead.
Concretely: one word (`new 64`), `chunk_num = 1` has `remaining == 0`, yet
`to_bin_chunked` fails while `count_ones_chunked` returns `(eof, 0)`. -/
theorem serialize_chunk_past_end_fails :
    (new 64).length - 1 * CHUNK_SIZE_U64 = 0 ∧
    to_bin_chunked (new 64) 1 = none ∧
    count_ones_chunked (new 64) 1 = (Cursor.eof, 0) := by
  refine ⟨by decide, by decide, by decide⟩

/-! ### C6: chunked population count -/

/-- In-range unfolding of `count_ones_chunked`. -/
theorem count_ones_chunked_eq (a : Words) (c : Nat) (hc : c * CHUNK_SIZE_U64 ≤ a.length) :
    count_ones_chunked a c =
      ((if a.length - c * CHUNK_SIZE_U64 ≤ CHUNK_SIZE_U64 then Cursor.eof
        else Cursor.next (c + 1)),
       (((a.drop (c * CHUNK_SIZE_U64)).take CHUNK_SIZE_U64).map popCount64).sum) := by
  simp only [count_ones_chunked]
  congr 1
  have hmin : min CHUNK_SIZE_U64 (a.length - c * CHUNK_SIZE_U64)
      ≤ a.length - c * CHUNK_SIZE_U64 := Nat.min_le_right _ _
  have hrw : (fun x => popCount64 (a.getD (x + c * CHUNK_SIZE_U64) 0)) =
      popCount64 ∘ (fun x => a.getD (x + c * CHUNK_SIZE_U64) 0) := rfl
  rw [hrw, ← List.map_map, range_map_getD _ _ _ (by omega)]
  have hlen : (a.drop (c * CHUNK_SIZE_U64)).length = a.length - c * CHUNK_SIZE_U64 := by
    simp
  rw [← hlen, take_min_length]

/-- With enough fuel, driving `count_ones_chunked` from chunk `c` to `eof`
sums the popcounts of all words from `c * CHUNK_SIZE_U64` on. -/
theorem count_from_eq (a : Words) (fuel : Nat) : ∀ c : Nat, 1 ≤ fuel →
    c * CHUNK_SIZE_U64 ≤ a.length →
    a.length ≤ c * CHUNK_SIZE_U64 + fuel * CHUNK_SIZE_U64 →
    count_from a fuel c = some (((a.drop (c * CHUNK_SIZE_U64)).map popCount64).sum) := by
  induction fuel with
  | zero => intro c h; omega
  | succ fuel ih =>
    intro c _ hc hlen
    rw [count_from, count_ones_chunked_eq a c hc]
    by_cases heof : a.length - c * CHUNK_SIZE_U64 ≤ CHUNK_SIZE_U64
    · rw [if_pos heof]
      dsimp only
      have hdl : (a.drop (c * CHUNK_SIZE_U64)).length ≤ CHUNK_SIZE_U64 := by
        simp
        omega
      rw [List.take_of_length_le hdl]
    · rw [if_neg heof]
      dsimp only
      have hfuel : 1 ≤ fuel := by
        by_contra hzero
        have hf0 : fuel = 0 := by omega
        subst hf0
        simp at hlen
        omega
      have hc1 : (c + 1) * CHUNK_SIZE_U64 ≤ a.length := by
        have h1 : (c + 1) * CHUNK_SIZE_U64 = c * CHUNK_SIZE_U64 + CHUNK_SIZE_U64 := by ring
        omega
      have hl1 : a.length ≤ (c + 1) * CHUNK_SIZE_U64 + fuel * CHUNK_SIZE_U64 := by
        have h1 : (c + 1) * CHUNK_SIZE_U64 = c * CHUNK_SIZE_U64 + CHUNK_SIZE_U64 := by ring
        have h2 : (fuel + 1) * CHUNK_SIZE_U64 = fuel * CHUNK_SIZE_U64 + CHUNK_SIZE_U64 := by ring
        omega
      rw [ih (c + 1) hfuel hc1 hl1]
      simp only [Option.map_some']
      congr 1
      rw [← List.sum_append, ← List.map_append]
      congr 2
      have h1 : (c + 1) * CHUNK_SIZE_U64 = c * CHUNK_SIZE_U64 + CHUNK_SIZE_U64 := by ring
      rw [h1, ← List.drop_drop]
      exact List.take_append_drop _ _

/-- C6: with no mutation between calls, summing the `partial_count` values of
`count_ones_chunk` from `chunk_num = 0` until the cursor is `eof` equals
`count_ones(a)`. -/
theorem count_chunked_total (a : Words) : count_all a = some (count_ones a) := by
  unfold count_all count_ones
  have h := count_from_eq a (a.length / CHUNK_SIZE_U64 + 1) 0
  rw [show CHUNK_SIZE_U64 = 1024 from rfl] at h
  rw [show CHUNK_SIZE_U64 = 1024 from rfl]
  rw [h (by omega) (by omega) (by omega)]
  rw [Nat.zero_mul, List.drop_zero]

/-! ### C7: count_ones vs put -/

theorem put_some_lt (a : Words) (i : Nat) (v : Bool) (a2 : Words)
    (h : put a i v = some a2) : i / 64 < a.length := by
  by_contra hge
  have hnone : a[i / 64]? = none := List.getElem?_eq_none (by omega)
  unfold put at h
  rw [hnone] at h
  exact Option.noConfusion h

/-- Full description of `get` after a successful `put`. -/
theorem get_after_put (a : Words) (i : Nat) (v : Bool) (a2 : Words)
    (hput : put a i v = some a2) (j : Nat) :
    get a2 j = if j = i then some v else get a j := by
  have hidx := put_some_lt a i v a2 hput
  have hmod : i % 64 < 64 := Nat.mod_lt _ (by decide)
  rw [put_eq_set a i v hidx] at hput
  injection hput with hput
  subst hput
  by_cases hji : j = i
  · subst hji
    rw [if_pos rfl, get_eq_testBit _ _ (by simpa using hidx),
      wordAt_set_self _ _ _ hidx]
    cases v with
    | true => rw [if_pos rfl, or_pow_testBit_self]
    | false => rw [if_neg (by simp), mask_testBit_self _ _ hmod]
  · rw [if_neg hji]
    by_cases hjr : j / 64 < a.length
    · rw [get_eq_testBit _ _ (by simpa using hjr), get_eq_testBit _ _ hjr]
      by_cases hsame : i / 64 = j / 64
      · have hbitne : i % 64 ≠ j % 64 := fun hbit => hji (by omega)
        have hj64 : j % 64 < 64 := Nat.mod_lt _ (by decide)
        rw [← hsame, wordAt_set_self _ _ _ hidx]
        cases v with
        | true => rw [if_pos rfl, or_pow_testBit_ne _ _ _ hbitne, hsame]
        | false => rw [if_neg (by simp), mask_testBit_ne _ _ _ hj64 hbitne, hsame]
      · rw [wordAt_set_ne _ _ _ _ hsame]
    · unfold get
      rw [List.getElem?_eq_none (by simpa using (by omega : a.length ≤ j / 64)),
        List.getElem?_eq_none (by omega : a.length ≤ j / 64)]

theorem count_ones_cons (w : Nat) (t : Words) :
    count_ones (w :: t) = popCount64 w + count_ones t := by
  simp [count_ones]

/-- Replacing one word trades its popcount for the new word's popcount. -/
theorem count_ones_set (a : Words) : ∀ (j w : Nat), j < a.length →
    count_ones (a.set j w) + popCount64 (wordAt a j) = count_ones a + popCount64 w := by
  induction a with
  | nil => intro j w h; simp at h
  | cons x t ih =>
    intro j w h
    cases j with
    | zero =>
      simp only [List.set_cons_zero, count_ones_cons]
      have hx : wordAt (x :: t) 0 = x := rfl
      rw [hx]
      omega
    | succ j =>
      simp only [List.set_cons_succ, count_ones_cons]
      have hx : wordAt (x :: t) (j + 1) = wordAt t j := rfl
      rw [hx]
      have := ih j w (by simpa using h)
      omega

theorem or_pow_eq_self (w k : Nat) (hb : w.testBit k = true) : w ||| 2 ^ k = w := by
  apply Nat.eq_of_testBit_eq
  intro i
  rw [Nat.testBit_or, Nat.testBit_two_pow]
  by_cases h : k = i
  · subst h
    simp [hb]
  · simp [h]

theorem countP_or_eq (l : List Nat) (p : Nat → Bool) (k : Nat) : k ∈ l →
    l.Nodup → p k = false →
    l.countP (fun i => p i || decide (k = i)) = l.countP p + 1 := by
  induction l with
  | nil => intro hmem; cases hmem
  | cons x t ih =>
    intro hmem hnd hk
    rcases List.mem_cons.mp hmem with hx | ht
    · subst hx
      have hknt : k ∉ t := (List.nodup_cons.mp hnd).1
      have htail : t.countP (fun i => p i || decide (k = i)) = t.countP p := by
        apply List.countP_congr
        intro i hi
        have hne : ¬(k = i) := fun he => hknt (he ▸ hi)
        simp [hne]
      rw [List.countP_cons, List.countP_cons, htail]
      simp [hk]
    · have hkx : ¬(k = x) := by
        intro he
        exact (List.nodup_cons.mp hnd).1 (he ▸ ht)
      have hdec : decide (k = x) = false := decide_eq_false hkx
      simp only [List.countP_cons, ih ht (List.nodup_cons.mp hnd).2 hk, hdec,
        Bool.or_false]
      omega

theorem popCount64_or_pow (w k : Nat) (hk : k < 64) (hb : w.testBit k = false) :
    popCount64 (w ||| 2 ^ k) = popCount64 w + 1 := by
  unfold popCount64
  have hpred : ∀ i ∈ List.range 64,
      ((w ||| 2 ^ k).testBit i = true) ↔ ((fun i => w.testBit i || decide (k = i)) i = true) := by
    intro i hi
    rw [Nat.testBit_or, Nat.testBit_two_pow]
  rw [List.countP_congr hpred]
  exact countP_or_eq _ _ _ (List.mem_range.mpr hk) (List.nodup_range 64) hb

/-- `count_ones` after `put(_, i, true)`: unchanged if the bit was already
set, incremented by one otherwise. -/
theorem count_ones_put_true (a : Words) (i : Nat) (a2 : Words)
    (hput : put a i true = some a2) :
    count_ones a2 = if get a i = some true then count_ones a else count_ones a + 1 := by
  have hidx := put_some_lt a i true a2 hput
  have hmod : i % 64 < 64 := Nat.mod_lt _ (by decide)
  rw [put_eq_set a i true hidx] at hput
  injection hput with hput
  subst hput
  rw [if_pos rfl]
  have hset := count_ones_set a (i / 64) (wordAt a (i / 64) ||| 2 ^ (i % 64)) hidx
  rw [get_eq_testBit _ _ hidx]
  by_cases hb : (wordAt a (i / 64)).testBit (i % 64) = true
  · have hor := or_pow_eq_self _ _ hb
    rw [hor] at hset ⊢
    rw [if_pos (by rw [hb])]
    omega
  · rw [Bool.not_eq_true] at hb
    rw [popCount64_or_pow _ _ hmod hb] at hset
    rw [if_neg (by rw [hb] ; simp)]
    omega

/-- The caller-side sequence of `put(_, i, true)` calls over a list of
indices. -/
def putSeq (a : Words) : List Nat → Option Words
  | [] => some a
  | i :: rest =>
    match put a i true with
    | none => none
    | some a2 => putSeq a2 rest

theorem putSeq_ok (ids : List Nat) : ∀ a : Words, ids.Nodup →
    (∀ i ∈ ids, i < bit_length a) → (∀ i ∈ ids, get a i = some false) →
    ∃ a2, putSeq a ids = some a2 ∧
      count_ones a2 = count_ones a + ids.length ∧
      a2.length = a.length ∧
      (∀ j, get a2 j = if j ∈ ids then some true else get a j) := by
  induction ids with
  | nil =>
    intro a _ _ _
    exact ⟨a, rfl, by simp, rfl, fun j => by simp⟩
  | cons i rest ih =>
    intro a hnd hvalid hclear
    have hidx : i / 64 < a.length :=
      index_div_lt a i (hvalid i (List.mem_cons_self i rest))
    have hput : put a i true
        = some (a.set (i / 64) (wordAt a (i / 64) ||| 2 ^ (i % 64))) := by
      rw [put_eq_set a i true hidx]
      simp
    have hcount1 := count_ones_put_true a i _ hput
    rw [hclear i (List.mem_cons_self i rest)] at hcount1
    rw [if_neg (by simp)] at hcount1
    have hget1 := get_after_put a i true _ hput
    have hlen1 : (a.set (i / 64) (wordAt a (i / 64) ||| 2 ^ (i % 64))).length
        = a.length := by
      simp
    obtain ⟨a2, hseq, hcount2, hlen2, hget2⟩ := ih _ (List.nodup_cons.mp hnd).2
      (by
        intro q hq
        unfold bit_length
        rw [hlen1]
        exact hvalid q (List.mem_cons_of_mem i hq))
      (by
        intro q hq
        have hqi : ¬(q = i) := by
          intro he
          rw [he] at hq
          exact (List.nodup_cons.mp hnd).1 hq
        rw [hget1 q, if_neg hqi]
        exact hclear q (List.mem_cons_of_mem i hq))
    refine ⟨a2, ?_, ?_, ?_, ?_⟩
    · unfold putSeq
      rw [hput]
      dsimp only
      exact hseq
    · rw [hcount2, hcount1, List.length_cons]
      omega
    · rw [hlen2, hlen1]
    · intro j
      rw [hget2 j]
      by_cases hjr : j ∈ rest
      · rw [if_pos hjr, if_pos (List.mem_cons_of_mem i hjr)]
      · rw [if_neg hjr, hget1 j]
        by_cases hji : j = i
        · rw [if_pos hji, if_pos (by rw [hji] ; exact List.mem_cons_self i rest)]
        · rw [if_neg hji, if_neg (by
            intro hmem
            rcases List.mem_cons.mp hmem with h | h
            · exact hji h
            · exact hjr h)]

/-- `count_ones` counts set bits over the whole allocated word range,
i.e. over every index below `bit_length` (padding included). -/
theorem count_ones_eq_countP (a : Words) :
    count_ones a = (List.range (bit_length a)).countP
      (fun i => decide (get a i = some true)) := by
  induction a with
  | nil => rfl
  | cons w t ih =>
    have hbl : bit_length (w :: t) = 64 + bit_length t := by
      unfold bit_length
      simp
      ring
    rw [hbl, List.range_add, List.countP_append, count_ones_cons]
    congr 1
    · rw [popCount64]
      apply List.countP_congr
      intro i hi
      have hi64 : i < 64 := List.mem_range.mp hi
      have hgeti : get (w :: t) i = some (w.testBit i) := by
        simp [get, Nat.div_eq_of_lt hi64, Nat.mod_eq_of_lt hi64, shiftLeft_one,
          decide_and_pow, decide_and_pow_zero]
      simp [hgeti]
    · rw [List.countP_map, ih]
      apply List.countP_congr
      intro i hi
      have hgets : get (w :: t) (64 + i) = get t i := by
        unfold get
        have hdiv : (64 + i) / 64 = i / 64 + 1 := by
          rw [Nat.add_comm 64 i]
          exact Nat.add_div_right i (by decide)
        have hmod : (64 + i) % 64 = i % 64 := by omega
        rw [hdiv, hmod, List.getElem?_cons_succ]
      simp [Function.comp, hgets]

/-- C7: `count_ones` is the number of set bits over all allocated words
(padding bits included); on a fresh array, `k` `put(_, i, true)` calls on `k`
distinct valid indices give `count_ones = k`, and re-setting an already-set
bit does not change the count. -/
theorem count_ones_distinct_puts (n : Nat) (ids : List Nat)
    (hnd : ids.Nodup) (hvalid : ∀ i ∈ ids, i < bit_length (new n)) :
    (∀ b : Words, count_ones b = (List.range (bit_length b)).countP
        (fun i => decide (get b i = some true))) ∧
    ∃ a, putSeq (new n) ids = some a ∧ count_ones a = ids.length ∧
      (∀ i ∈ ids, ∃ a2, put a i true = some a2 ∧ count_ones a2 = ids.length) := by
  refine ⟨count_ones_eq_countP, ?_⟩
  obtain ⟨a, hseq, hcount, hlen, hget⟩ := putSeq_ok ids (new n) hnd hvalid
    (fun i hi => get_new n i (hvalid i hi))
  refine ⟨a, hseq, by rw [hcount, count_ones_new] ; omega, ?_⟩
  intro i hi
  have hidx : i / 64 < a.length := by
    rw [hlen]
    exact index_div_lt _ _ (hvalid i hi)
  have hput : put a i true
      = some (a.set (i / 64) (wordAt a (i / 64) ||| 2 ^ (i % 64))) := by
    rw [put_eq_set a i true hidx]
    simp
  refine ⟨_, hput, ?_⟩
  have hc := count_ones_put_true a i _ hput
  rw [hget i, if_pos hi] at hc
  rw [hc, if_pos rfl, hcount, count_ones_new]
  omega

/-- Witness for C7 at a concrete input. -/
theorem count_ones_distinct_puts_witness :
    ([0, 99, 64] : List Nat).Nodup ∧
    (∀ i ∈ ([0, 99, 64] : List Nat), i < bit_length (new 100)) ∧
    ((∀ b : Words, count_ones b = (List.range (bit_length b)).countP
        (fun i => decide (get b i = some true))) ∧
      ∃ a, putSeq (new 100) [0, 99, 64] = some a ∧
        count_ones a = ([0, 99, 64] : List Nat).length ∧
        (∀ i ∈ ([0, 99, 64] : List Nat), ∃ a2, put a i true = some a2 ∧
          count_ones a2 = ([0, 99, 64] : List Nat).length)) :=
  ⟨by decide, by decide,
    count_ones_distinct_puts 100 [0, 99, 64] (by decide) (by decide)⟩

/-! ### C4/C5: chunked OR-merge -/

theorem byteAt_wordAt (a : Words) (p : Nat) :
    byteAt a p = (wordAt a (p / 8) >>> ((p % 8) * 8)) % 256 := rfl

theorem or_shiftRight_mod256 (x y t : Nat) :
    ((x ||| y) >>> t) % 256 = ((x >>> t) % 256) ||| ((y >>> t) % 256) := by
  rw [show (256 : Nat) = 2 ^ 8 from by norm_num]
  apply Nat.eq_of_testBit_eq
  intro i
  simp only [Nat.testBit_mod_two_pow, Nat.testBit_shiftRight, Nat.testBit_or]
  exact Bool.and_or_distrib_left _ _ _

/-- Reading byte lane `m` of a byte `b` placed at lane `l`: `b` itself at the
same lane, 0 elsewhere. -/
theorem lane_extract (b l m : Nat) (hb : b < 256) (hl : l < 8) (hm : m < 8) :
    ((b <<< (l * 8)) >>> (m * 8)) % 256 = if m = l then b else 0 := by
  rw [show (256 : Nat) = 2 ^ 8 from by norm_num]
  apply Nat.eq_of_testBit_eq
  intro i
  rw [Nat.testBit_mod_two_pow, Nat.testBit_shiftRight, Nat.testBit_shiftLeft]
  by_cases him : m = l
  · subst him
    rw [if_pos rfl]
    have h2 : m * 8 + i - m * 8 = i := by omega
    have h1 : decide (m * 8 + i ≥ m * 8) = true := by simp
    rw [h2, h1]
    by_cases hi8 : i < 8
    · simp [hi8]
    · have h8i : 8 ≤ i := by omega
      have h256le : (256 : Nat) ≤ 2 ^ i := by
        calc (256 : Nat) = 2 ^ 8 := by norm_num
          _ ≤ 2 ^ i := Nat.pow_le_pow_right (by decide) h8i
      have hbf : b.testBit i = false :=
        Nat.testBit_lt_two_pow (lt_of_lt_of_le hb h256le)
      simp [hi8, hbf]
  · rw [if_neg him, Nat.zero_testBit]
    rcases Nat.lt_or_ge m l with hml | hml
    · by_cases hi8 : i < 8
      · have hno : ¬(m * 8 + i ≥ l * 8) := by omega
        simp [hno]
      · simp [hi8]
    · have hlm : l < m := by omega
      have h8a : 8 ≤ m * 8 + i - l * 8 := by omega
      have h256le : (256 : Nat) ≤ 2 ^ (m * 8 + i - l * 8) := by
        calc (256 : Nat) = 2 ^ 8 := by norm_num
          _ ≤ 2 ^ (m * 8 + i - l * 8) := Nat.pow_le_pow_right (by decide) h8a
      have hbf : b.testBit (m * 8 + i - l * 8) = false :=
        Nat.testBit_lt_two_pow (lt_of_lt_of_le hb h256le)
      simp [hbf]

/-- Effect of the single-byte OR step on every byte of the array. -/
theorem byteAt_set_or (a : Words) (p q b : Nat) (hb : b < 256)
    (hidx : p / 8 < a.length) :
    byteAt (a.set (p / 8) (wordAt a (p / 8) ||| (b <<< ((p % 8) * 8)))) q
      = byteAt a q ||| (if q = p then b else 0) := by
  rw [byteAt_wordAt, byteAt_wordAt]
  by_cases hsame : q / 8 = p / 8
  · rw [hsame, wordAt_set_self _ _ _ hidx, or_shiftRight_mod256,
      lane_extract b (p % 8) (q % 8) hb (Nat.mod_lt _ (by decide))
        (Nat.mod_lt _ (by decide))]
    congr 1
    by_cases hqp : q % 8 = p % 8
    · rw [if_pos hqp, if_pos (by omega)]
    · rw [if_neg hqp, if_neg (by omega)]
  · rw [wordAt_set_ne _ _ _ _ (fun h => hsame h.symm)]
    have hqp : ¬(q = p) := fun he => hsame (by rw [he])
    rw [if_neg hqp, Nat.or_zero]

/-- Full characterization of the `or_chunk` loop: it succeeds whenever every
touched word index is in range, preserves length and well-formedness, and ORs
byte `x` of the buffer into absolute byte position `p + x`, leaving all other
bytes unchanged. -/
theorem or_chunk_go_spec (bin : List Nat) : ∀ (a : Words) (p : Nat),
    (∀ x, x < bin.length → (p + x) / 8 < a.length) →
    (∀ b ∈ bin, b < 256) →
    ∃ a2, or_chunk_go a bin p = some a2 ∧ a2.length = a.length ∧
      (wf a → wf a2) ∧
      (∀ q, byteAt a2 q = byteAt a q |||
        (if p ≤ q ∧ q < p + bin.length then bin.getD (q - p) 0 else 0)) := by
  induction bin with
  | nil =>
    intro a p _ _
    exact ⟨a, rfl, rfl, fun h => h, fun q => by simp⟩
  | cons b rest ih =>
    intro a p hidx hb
    have hp8 : p / 8 < a.length := by
      have := hidx 0 (by simp)
      simpa using this
    have hb0 : b < 256 := hb b (List.mem_cons_self b rest)
    have hwd : wordAt a (p / 8) = a[p / 8] := by
      unfold wordAt
      rw [List.getD_eq_getElem?_getD, List.getElem?_eq_getElem hp8]
      rfl
    obtain ⟨a2, hgo, hlen, hwf, hbyte⟩ :=
      ih (a.set (p / 8) (wordAt a (p / 8) ||| (b <<< ((p % 8) * 8)))) (p + 1)
      (by
        intro x hx
        rw [List.length_set]
        have h1 : p + 1 + x = p + (x + 1) := by omega
        rw [h1]
        exact hidx (x + 1) (by simpa using hx))
      (fun b2 hb2 => hb b2 (List.mem_cons_of_mem b hb2))
    refine ⟨a2, ?_, ?_, ?_, ?_⟩
    · rw [or_chunk_go, List.getElem?_eq_getElem hp8]
      dsimp only
      rw [← hwd]
      exact hgo
    · rw [hlen, List.length_set]
    · intro hwfa
      apply hwf
      intro w hwmem
      rcases List.mem_or_eq_of_mem_set hwmem with hmem | heq
      · exact hwfa w hmem
      · subst heq
        apply Nat.or_lt_two_pow
        · rw [hwd]
          exact hwfa _ (List.getElem_mem hp8)
        · rw [Nat.shiftLeft_eq]
          calc b * 2 ^ (p % 8 * 8) < 256 * 2 ^ (p % 8 * 8) :=
                Nat.mul_lt_mul_of_lt_of_le hb0 (Nat.le_refl _) (Nat.two_pow_pos _)
            _ ≤ 256 * 2 ^ 56 := by
                apply Nat.mul_le_mul_left
                apply Nat.pow_le_pow_right (by decide)
                omega
            _ = 2 ^ 64 := by norm_num
    · intro q
      rw [hbyte q, byteAt_set_or a p q b hb0 hp8]
      simp only [List.length_cons]
      by_cases hq1 : q = p
      · subst hq1
        rw [if_pos rfl, if_neg (by omega), if_pos (by omega)]
        have hgd : (b :: rest).getD (q - q) 0 = b := by
          rw [Nat.sub_self]
          rfl
        rw [hgd, Nat.or_zero]
      · rw [if_neg hq1]
        by_cases hq2 : p + 1 ≤ q ∧ q < p + 1 + rest.length
        · rw [if_pos hq2, if_pos (by omega), Nat.or_zero]
          have hgd : rest.getD (q - (p + 1)) 0 = (b :: rest).getD (q - p) 0 := by
            have h1 : q - p = (q - (p + 1)) + 1 := by omega
            rw [h1, List.getD_cons_succ]
          rw [hgd]
        · rw [if_neg hq2, if_neg (by omega), Nat.or_zero]

/-- C4: `merge_chunk` ORs byte `x` of the buffer into word `(byte_offset+x)/8`
at byte lane `(byte_offset+x) % 8` (leaving every other byte untouched) and
returns `byte_offset + len(bytes)`, provided every touched word index is in
range. -/
theorem merge_chunk_or (a : Words) (bin : List Nat) (off : Nat)
    (hidx : ∀ x, x < bin.length → (off + x) / 8 < a.length)
    (hbytes : ∀ b ∈ bin, b < 256) (hwf : wf a) :
    ∃ a2, or_chunk a bin off = some (a2, off + bin.length) ∧
      a2.length = a.length ∧ wf a2 ∧
      (∀ q, byteAt a2 q = byteAt a q |||
        (if off ≤ q ∧ q < off + bin.length then bin.getD (q - off) 0 else 0)) := by
  obtain ⟨a2, hgo, hlen, hwf2, hbyte⟩ := or_chunk_go_spec bin a off hidx hbytes
  refine ⟨a2, ?_, hlen, hwf2 hwf, hbyte⟩
  rw [or_chunk, hgo]
  rfl

/-- Witness for C4 at a concrete input. -/
theorem merge_chunk_or_witness :
    (∀ x, x < ([255, 1] : List Nat).length → (3 + x) / 8 < ([0, 0] : Words).length) ∧
    (∀ b ∈ ([255, 1] : List Nat), b < 256) ∧ wf [0, 0] ∧
    ∃ a2, or_chunk [0, 0] [255, 1] 3 = some (a2, 3 + ([255, 1] : List Nat).length) ∧
      a2.length = ([0, 0] : Words).length ∧ wf a2 ∧
      (∀ q, byteAt a2 q = byteAt [0, 0] q |||
        (if 3 ≤ q ∧ q < 3 + ([255, 1] : List Nat).length
         then ([255, 1] : List Nat).getD (q - 3) 0 else 0)) := by
  have h1 : ∀ x, x < ([255, 1] : List Nat).length → (3 + x) / 8 < ([0, 0] : Words).length := by
    decide
  have h2 : ∀ b ∈ ([255, 1] : List Nat), b < 256 := by decide
  have h3 : wf [0, 0] := by
    unfold wf
    decide
  exact ⟨h1, h2, h3, merge_chunk_or [0, 0] [255, 1] 3 h1 h2 h3⟩

/-- A 64-bit word is determined by its 8 byte lanes. -/
theorem word_eq_of_lanes (u v : Nat) (hu : u < 2 ^ 64) (hv : v < 2 ^ 64)
    (h : ∀ m, m < 8 → (u >>> (m * 8)) % 256 = (v >>> (m * 8)) % 256) : u = v := by
  apply Nat.eq_of_testBit_eq
  intro i
  by_cases hi : i < 64
  · have hm : i / 8 < 8 := by omega
    have hlane : ∀ w : Nat, ((w >>> (i / 8 * 8)) % 256).testBit (i % 8) = w.testBit i := by
      intro w
      rw [show (256 : Nat) = 2 ^ 8 from by norm_num, Nat.testBit_mod_two_pow,
        Nat.testBit_shiftRight]
      have h8 : i % 8 < 8 := Nat.mod_lt _ (by decide)
      have harg : i / 8 * 8 + i % 8 = i := by omega
      rw [harg]
      simp [h8]
    rw [← hlane u, ← hlane v, h (i / 8) hm]
  · have h64 : (2 : Nat) ^ 64 ≤ 2 ^ i := Nat.pow_le_pow_right (by decide) (by omega)
    rw [Nat.testBit_lt_two_pow (lt_of_lt_of_le hu h64),
      Nat.testBit_lt_two_pow (lt_of_lt_of_le hv h64)]

/-- Byte `q` of the little-endian encoding is byte `q` of the array. -/
theorem leEncoding_getD (b : Words) : ∀ q, q < 8 * b.length →
    (leEncoding b).getD q 0 = byteAt b q := by
  induction b with
  | nil =>
    intro q h
    simp at h
  | cons w t ih =>
    intro q hq
    rw [leEncoding, List.flatMap_cons]
    have hlb8 : (leBytes w).length = 8 := by simp [leBytes]
    by_cases h8 : q < 8
    · rw [List.getD_eq_getElem?_getD, List.getElem?_append_left (by omega),
        ← List.getD_eq_getElem?_getD]
      have hlbq : (leBytes w).getD q 0 = w / 2 ^ (q * 8) % 256 := by
        rw [leBytes, List.getD_eq_getElem?_getD]
        rw [List.getElem?_map, List.getElem?_range h8]
        rfl
      rw [hlbq, byteAt, Nat.div_eq_of_lt h8, Nat.mod_eq_of_lt h8]
      have hg0 : (w :: t).getD 0 0 = w := rfl
      rw [hg0, Nat.shiftRight_eq_div_pow]
    · rw [List.getD_eq_getElem?_getD, List.getElem?_append_right (by omega),
        ← List.getD_eq_getElem?_getD, hlb8]
      have hql : q - 8 < 8 * t.length := by
        simp only [List.length_cons] at hq
        omega
      rw [← leEncoding] at *
      rw [ih (q - 8) hql, byteAt, byteAt]
      have hdiv : q / 8 = (q - 8) / 8 + 1 := by omega
      have hmod : q % 8 = (q - 8) % 8 := by omega
      rw [hdiv, hmod, List.getD_cons_succ]

theorem byteAt_replicate_zero (L q : Nat) : byteAt (List.replicate L 0) q = 0 := by
  unfold byteAt
  have hg : (List.replicate L 0).getD (q / 8) 0 = 0 := by
    rw [List.getD_eq_getElem?_getD, List.getElem?_replicate]
    by_cases h : q / 8 < L <;> simp [h]
  rw [hg]
  simp

theorem leEncoding_bytes_lt (b : Words) : ∀ y ∈ leEncoding b, y < 256 := by
  intro y hy
  rw [leEncoding, List.mem_flatMap] at hy
  obtain ⟨w, _, hyw⟩ := hy
  rw [leBytes, List.mem_map] at hyw
  obtain ⟨z, _, hz⟩ := hyw
  rw [← hz]
  exact Nat.mod_lt _ (by decide)

theorem wf_replicate_zero (L : Nat) : wf (List.replicate L 0) := by
  intro w hw
  have := List.eq_of_mem_replicate hw
  subst this
  exact Nat.two_pow_pos 64

/-- Merging never clears a set bit. -/
theorem or_chunk_go_mono (bin : List Nat) : ∀ (a a2 : Words) (p : Nat),
    or_chunk_go a bin p = some a2 →
    ∀ i, get a i = some true → get a2 i = some true := by
  induction bin with
  | nil =>
    intro a a2 p h i hi
    rw [or_chunk_go] at h
    injection h with h
    rw [← h]
    exact hi
  | cons b rest ih =>
    intro a a2 p h i hi
    rw [or_chunk_go] at h
    cases hg : a[p / 8]? with
    | none =>
      rw [hg] at h
      exact absurd h (by simp)
    | some w =>
      rw [hg] at h
      dsimp only at h
      apply ih _ _ _ h
      have hp8 : p / 8 < a.length := by
        by_contra hge
        rw [List.getElem?_eq_none (by omega)] at hg
        exact Option.noConfusion hg
      by_cases hir : i / 64 < a.length
      · rw [get_eq_testBit _ _ hir] at hi
        rw [get_eq_testBit _ _ (by simpa using hir)]
        injection hi with hi
        by_cases hsame : p / 8 = i / 64
        · rw [← hsame, wordAt_set_self _ _ _ hp8]
          rw [← hsame] at hi
          have hwd : wordAt a (p / 8) = w := by
            unfold wordAt
            rw [List.getD_eq_getElem?_getD, hg]
            rfl
          rw [← hwd]
          simp [Nat.testBit_or, hi]
        · rw [wordAt_set_ne _ _ _ _ hsame, hi]
      · unfold get at hi
        rw [List.getElem?_eq_none (by omega)] at hi
        exact absurd hi (by simp)

theorem byteAt_getElem (a : Words) (j m : Nat) (hj : j < a.length) (hm : m < 8) :
    byteAt a (j * 8 + m) = (a[j] >>> (m * 8)) % 256 := by
  unfold byteAt
  have hdiv : (j * 8 + m) / 8 = j := by omega
  have hmod : (j * 8 + m) % 8 = m := by omega
  rw [hdiv, hmod, List.getD_eq_getElem?_getD, List.getElem?_eq_getElem hj]
  rfl

/-- Two well-formed arrays with the same bytes are equal. -/
theorem eq_of_byteAt_eq (a b : Words) (hlen : a.length = b.length)
    (hwa : wf a) (hwb : wf b)
    (h : ∀ q, q < 8 * b.length → byteAt a q = byteAt b q) : a = b := by
  apply List.ext_getElem hlen
  intro j hj1 hj2
  apply word_eq_of_lanes _ _ (hwa _ (List.getElem_mem hj1))
    (hwb _ (List.getElem_mem hj2))
  intro m hm
  rw [← byteAt_getElem a j m hj1 hm, ← byteAt_getElem b j m hj2 hm]
  apply h
  omega

/-- C5: `merge_chunk` is a bitwise set-union (bits set in the target stay
set); merging the full serialized byte stream of `b` (whose length is
`bit_length b / 8`) into an all-zero array of the same word count at offset 0
reconstructs `b`, and merging the same bytes into `b` again changes nothing. -/
theorem merge_chunk_union (b : Words) (hw : wf b) :
    (∀ (a a2 : Words) (bin : List Nat) (off r : Nat),
        or_chunk a bin off = some (a2, r) →
        ∀ i, get a i = some true → get a2 i = some true) ∧
    ∃ bytes, serialize_all b = some bytes ∧ bytes.length = bit_length b / 8 ∧
      or_chunk (List.replicate b.length 0) bytes 0 = some (b, bytes.length) ∧
      or_chunk b bytes 0 = some (b, bytes.length) := by
  constructor
  · intro a a2 bin off r h i hi
    unfold or_chunk at h
    cases hgo : or_chunk_go a bin off with
    | none =>
      rw [hgo] at h
      exact absurd h (by simp)
    | some a3 =>
      rw [hgo] at h
      simp only [Option.map_some', Option.some.injEq, Prod.mk.injEq] at h
      rw [← h.1]
      exact or_chunk_go_mono bin a a3 off hgo i hi
  · have hblen : (leEncoding b).length = b.length * 8 := length_leEncoding b
    have hbytes := leEncoding_bytes_lt b
    refine ⟨leEncoding b, serialize_all_eq b, ?_, ?_, ?_⟩
    · rw [hblen, bit_length]
      omega
    · have hidx : ∀ x, x < (leEncoding b).length →
          (0 + x) / 8 < (List.replicate b.length 0).length := by
        intro x hx
        rw [List.length_replicate]
        rw [hblen] at hx
        omega
      obtain ⟨a2, hgo, hlen, hwfimp, hbyte⟩ :=
        or_chunk_go_spec (leEncoding b) (List.replicate b.length 0) 0 hidx hbytes
      have ha2b : a2 = b := by
        apply eq_of_byteAt_eq _ _ (by rw [hlen, List.length_replicate])
          (hwfimp (wf_replicate_zero b.length)) hw
        intro q hq
        rw [hbyte q, byteAt_replicate_zero,
          if_pos ⟨Nat.zero_le q, by rw [Nat.zero_add, hblen] ; omega⟩,
          Nat.sub_zero, leEncoding_getD b q hq]
        exact Nat.zero_or _
      rw [or_chunk, hgo, ha2b]
      simp
    · have hidx : ∀ x, x < (leEncoding b).length → (0 + x) / 8 < b.length := by
        intro x hx
        rw [hblen] at hx
        omega
      obtain ⟨a2, hgo, hlen, hwfimp, hbyte⟩ :=
        or_chunk_go_spec (leEncoding b) b 0 hidx hbytes
      have ha2b : a2 = b := by
        apply eq_of_byteAt_eq _ _ hlen (hwfimp hw) hw
        intro q hq
        rw [hbyte q,
          if_pos ⟨Nat.zero_le q, by rw [Nat.zero_add, hblen] ; omega⟩,
          Nat.sub_zero, leEncoding_getD b q hq]
        exact Nat.or_self _
      rw [or_chunk, hgo, ha2b]
      simp

/-- Witness for C5 at a concrete input. -/
theorem merge_chunk_union_witness :
    wf [5] ∧
    ((∀ (a a2 : Words) (bin : List Nat) (off r : Nat),
        or_chunk a bin off = some (a2, r) →
        ∀ i, get a i = some true → get a2 i = some true) ∧
      ∃ bytes, serialize_all [5] = some bytes ∧
        bytes.length = bit_length [5] / 8 ∧
        or_chunk (List.replicate ([5] : Words).length 0) bytes 0
          = some ([5], bytes.length) ∧
        or_chunk [5] bytes 0 = some ([5], bytes.length)) := by
  have hwf : wf [5] := by
    unfold wf
    decide
  exact ⟨hwf, merge_chunk_union [5] hwf⟩

end Flower
